import Mathlib

/-!
Verification of the NeRF-Texture rendering engine (renderer.py and
spherical_harmonics.py) against its natural-language specification.

The Python code is shallowly embedded: batched tensor operations that act
row-wise (per ray / per sample) are modelled as list operations on one row;
floating point numbers are modelled as exact rationals (reals where the
exponential function is involved); the external `raymarching` CUDA extension
and the learned field are modelled as inputs or, where the spec pins down
their behaviour, as definitions marked "Modelled from the spec".
-/

set_option maxHeartbeats 1000000

namespace NeRF

variable {α : Type} [LinearOrderedField α]

/-- Inclusive cumulative sum (torch.cumsum) starting from accumulator `acc`. -/
def cumsumFrom (acc : α) : List α → List α
  | [] => []
  | x :: xs => (acc + x) :: cumsumFrom (acc + x) xs

/-- Inclusive cumulative sum, as in `torch.cumsum(pdf, -1)`. -/
def cumsum (l : List α) : List α := cumsumFrom 0 l

/-- Inclusive cumulative product (torch.cumprod) starting from accumulator `acc`. -/
def cumprodFrom (acc : α) : List α → List α
  | [] => []
  | x :: xs => (acc * x) :: cumprodFrom (acc * x) xs

/-- Inclusive cumulative product, as in `torch.cumprod(alphas_shifted, dim=-1)`. -/
def cumprod (l : List α) : List α := cumprodFrom 1 l

/-- The `1e-5` constant used by `sample_pdf` (renderer.py line 13 and 34). -/
def eps5 : α := 1 / 100000

/-- The `1e-15` constant added to `1 - alphas` in the transmittance cumulative
product (renderer.py lines 215 and 247). -/
def eps15 : α := 1 / 1000000000000000

/-- `torch.searchsorted(cdf, u, right=True)` on one row: the number of entries
of `cdf` that are less than or equal to `u`; for a sorted `cdf` this is the
insertion index keeping the row sorted with `u` placed after equal entries. -/
def ssRight (u : α) : List α → ℕ
  | [] => 0
  | c :: rest => (if c ≤ u then 1 else 0) + ssRight u rest

/-- The CDF built by `sample_pdf` (renderer.py lines 13-16): weights are floored
by `1e-5`, normalised into a pdf, cumulatively summed, and a leading zero is
prepended. -/
def pdfCdf (weights : List α) : List α :=
  let w := weights.map (fun x => x + eps5)
  let pdf := w.map (fun x => x / w.sum)
  0 :: cumsum pdf

/-- One quantile of `sample_pdf` (renderer.py lines 24-36): binary-search the
CDF for the bracketing interval, guard a degenerate CDF span by replacing the
denominator with 1, then interpolate linearly between the two bin edges. -/
def sample_pdf_one (bins cdf : List α) (uu : α) : α :=
  let inds := ssRight uu cdf
  let below := inds - 1
  let above := min (cdf.length - 1) inds
  let cdf0 := cdf.getD below 0
  let cdf1 := cdf.getD above 0
  let b0 := bins.getD below 0
  let b1 := bins.getD above 0
  let denom0 := cdf1 - cdf0
  let denom := if denom0 < eps5 then 1 else denom0
  b0 + ((uu - cdf0) / denom) * (b1 - b0)

/-- `sample_pdf(bins, weights, n_samples, det)` (renderer.py lines 12-38) on one
row.  The quantiles `u` (a deterministic linspace or uniform random draws in
the source, lines 18-22) are passed in explicitly. -/
def sample_pdf (bins weights : List α) (u : List α) : List α :=
  u.map (sample_pdf_one bins (pdfCdf weights))

/-- `torch.linspace(a, b, n)`. -/
def linspace (a b : α) (n : ℕ) : List α :=
  (List.range n).map (fun i => a + (b - a) * ((i : α) / ((n : α) - 1)))

/-- The alpha-compositing weights of renderer.py lines 215-216 and 247-248 on
one row: `alphas_shifted = cat([ones, 1 - alphas + 1e-15])` and
`weights = alphas * cumprod(alphas_shifted)[..., :-1]`. -/
def compositeWeights (alphas : List α) : List α :=
  let shifted := (1 : α) :: alphas.map (fun a => 1 - a + eps15)
  List.zipWith (fun a c => a * c) alphas (cumprod shifted).dropLast

/-- Recurrence form of `compositeWeights`: the running transmittance `T` is
threaded explicitly. Used only for proofs. -/
def weightsAux (T : α) : List α → List α
  | [] => []
  | a :: rest => a * T :: weightsAux (T * (1 - a + eps15)) rest

/-- Insert a `(value, original index)` pair into a list sorted by value,
keeping earlier equal values first (ascending sort). -/
def insertPair (p : α × ℕ) : List (α × ℕ) → List (α × ℕ)
  | [] => [p]
  | q :: rest => if q.1 ≤ p.1 then q :: insertPair p rest else p :: q :: rest

/-- Insertion sort of `(value, original index)` pairs by value. -/
def sortPairs : List (α × ℕ) → List (α × ℕ)
  | [] => []
  | p :: rest => insertPair p (sortPairs rest)

/-- `torch.sort(z_vals, dim=1)` on one row (renderer.py line 235): returns the
ascending values together with the indices of where each output value came
from in the input. -/
def sortWithIndex (l : List α) : List α × List ℕ :=
  let s := sortPairs (l.zip (List.range l.length))
  (s.map Prod.fst, s.map Prod.snd)

/-- `torch.gather(attr, dim=1, index=idx)` on one row (renderer.py lines
238 and 242): slot `k` of the output is slot `idx[k]` of the input. -/
def gather {β : Type} (attr : List β) (idx : List ℕ) (d : β) : List β :=
  idx.map (fun i => attr.getD i d)

/-- A 3-vector, one row of a `[N, 3]` tensor. -/
def Vec3 (α : Type) : Type := α × α × α

/-- Componentwise combination of two 3-vectors. -/
def vmap2 (f : α → α → α) (a b : Vec3 α) : Vec3 α :=
  (f a.1 b.1, f a.2.1 b.2.1, f a.2.2 b.2.2)

/-- Scale a 3-vector by a scalar. -/
def vscale (t : α) (v : Vec3 α) : Vec3 α := (t * v.1, t * v.2.1, t * v.2.2)

/-- The manual clip of sample positions to the axis-aligned box
`[-bound, bound]^3` (renderer.py lines 196 and 225):
`torch.min(torch.max(xyzs, aabb[:3]), aabb[3:])`. -/
def clip3 (bound : α) (v : Vec3 α) : Vec3 α :=
  (min (max v.1 (-bound)) bound,
   min (max v.2.1 (-bound)) bound,
   min (max v.2.2 (-bound)) bound)

/-- Sum of a list of 3-vectors. -/
def vsum : List (Vec3 α) → Vec3 α
  | [] => (0, 0, 0)
  | v :: rest => vmap2 (fun a b => a + b) v (vsum rest)

/-- One ray of a batch.  `near` and `far` are the entry and exit distances
against the scene bound; in the source they are produced per ray by
`raymarching.near_far_from_aabb` (a CUDA extension, not part of src), so they
are carried as ray data here. -/
structure Ray (α : Type) where
  o : Vec3 α
  d : Vec3 α
  near : α
  far : α

/-- The configuration of the non-cuda rendering path `NeRFRenderer.run`
(renderer.py line 168): uniform step count, importance-resampling step count,
`density_scale` and the scene `bound`. -/
structure RenderCfg (α : Type) where
  num_steps : ℕ
  upsample_steps : ℕ
  density_scale : α
  bound : α

/-- One ray of `NeRFRenderer.run` (renderer.py lines 168-292) on the
deterministic path (`perturb=False`, deterministic quantiles, as used outside
training).  `fexp` stands for the exponential `torch.exp`; `sigf` and `colf`
are the learned density and color fields (external to this module, queried at
clipped sample positions); `bgf` is the background color for this ray (a
constant or the external background model evaluated on the ray).  Returns
`(depth, image, mask)` for the ray. -/
def runRay (fexp : α → α) (sigf : Vec3 α → α) (colf : Vec3 α → Vec3 α)
    (bgf : Ray α → Vec3 α) (cfg : RenderCfg α) (r : Ray α) :
    α × Vec3 α × Bool :=
  let T := cfg.num_steps
  let z_vals := (linspace 0 1 T).map (fun t => r.near + (r.far - r.near) * t)
  let sample_dist := (r.far - r.near) / (T : α)
  let xyzsOf := fun (zs : List α) =>
    zs.map (fun z => clip3 cfg.bound (vmap2 (fun a b => a + b) r.o (vscale z r.d)))
  let deltasOf := fun (zs : List α) =>
    (List.zipWith (fun a b => a - b) (zs.drop 1) zs) ++ [sample_dist]
  let alphasOf := fun (deltas sigmas : List α) =>
    List.zipWith (fun dl s => 1 - fexp (-(dl * cfg.density_scale * s))) deltas sigmas
  let xyzs := xyzsOf z_vals
  let sigmas := xyzs.map sigf
  let merged :=
    if 0 < cfg.upsample_steps then
      let deltas1 := deltasOf z_vals
      let weights1 := compositeWeights (alphasOf deltas1 sigmas)
      let z_mid := List.zipWith (fun z dl => z + dl / 2) z_vals.dropLast deltas1.dropLast
      let n := cfg.upsample_steps
      let u := linspace (1 / (2 * (n : α))) (1 - 1 / (2 * (n : α))) n
      let new_z := sample_pdf z_mid ((weights1.drop 1).dropLast) u
      let new_xyzs := xyzsOf new_z
      let new_sigmas := new_xyzs.map sigf
      let sorted := sortWithIndex (z_vals ++ new_z)
      (sorted.1,
       gather (xyzs ++ new_xyzs) sorted.2 (0, 0, 0),
       gather (sigmas ++ new_sigmas) sorted.2 0)
    else
      (z_vals, xyzs, sigmas)
  let z2 := merged.1
  let xyzs2 := merged.2.1
  let sigmas2 := merged.2.2
  let deltas2 := deltasOf z2
  let weights2 := compositeWeights (alphasOf deltas2 sigmas2)
  let rgbs := xyzs2.map colf
  let weights_sum := weights2.sum
  let ori_z := z2.map (fun z => min (max ((z - r.near) / (r.far - r.near)) 0) 1)
  let depth := (List.zipWith (fun w z => w * z) weights2 ori_z).sum
  let image := vmap2 (fun a b => a + b)
    (vsum (List.zipWith (fun w c => vscale w c) weights2 rgbs))
    (vscale (1 - weights_sum) (bgf r))
  let mask := decide ((19 / 20 : α) < weights_sum)
  (depth, image, mask)

/-- `NeRFRenderer.run` on a flat batch of rays: every batched tensor operation
in renderer.py lines 168-292 acts row-wise, so the batch is the per-ray map. -/
def run (fexp : α → α) (sigf : Vec3 α → α) (colf : Vec3 α → Vec3 α)
    (bgf : Ray α → Vec3 α) (cfg : RenderCfg α) (rays : List (Ray α)) :
    List (α × Vec3 α × Bool) :=
  rays.map (runRay fexp sigf colf bgf cfg)

/-- The chunking loop of `NeRFRenderer.render` (renderer.py lines 610-617):
`head = 0; while head < N: tail = min(head + c, N); ...; head += c`.
For positive `c` the first chunk is the first `c` rays, and so on. -/
def chunksOf (c : ℕ) : List β → List (List β)
  | [] => []
  | x :: xs => (x :: xs.take (c - 1)) :: chunksOf c (xs.drop (c - 1))
  termination_by l => l.length
  decreasing_by simp; omega

/-- `NeRFRenderer.render` (renderer.py lines 596-626) on the non-cuda path.
When `staged` (or `force_staged`) each row of the `[B, N]` ray batch is split
into chunks of `maxRayBatch` rays, `run` is invoked per chunk, and the
per-chunk results are written back into the preallocated output slots;
otherwise `run` is invoked on the whole batch. -/
def render (fexp : α → α) (sigf : Vec3 α → α) (colf : Vec3 α → Vec3 α)
    (bgf : Ray α → Vec3 α) (cfg : RenderCfg α) (staged : Bool)
    (maxRayBatch : ℕ) (rows : List (List (Ray α))) :
    List (List (α × Vec3 α × Bool)) :=
  if staged then
    rows.map (fun row =>
      ((chunksOf maxRayBatch row).map (run fexp sigf colf bgf cfg)).flatten)
  else
    rows.map (run fexp sigf colf bgf cfg)

/-- The mutable acceleration state of `NeRFRenderer` touched by
`update_extra_state`: the flattened cascaded density grid, the running
`mean_density` scalar, and the packed occupancy bitfield (modelled one Bool
per voxel). -/
structure GridState where
  grid : List ℚ
  mean_density : ℚ
  bitfield : List Bool

/-- The combine step of `update_extra_state` (renderer.py lines 580-583):
`valid_mask = (density_grid >= 0) & (tmp_grid >= 0)` (all-ones when
`force_full_grid`), and on the mask
`density_grid[valid_mask] = maximum(density_grid[valid_mask] * decay, tmp_grid[valid_mask])`;
voxels outside the mask keep their previous value. -/
def gridCombine (decay : ℚ) (forceFullGrid : Bool) (old tmp : List ℚ) : List ℚ :=
  List.zipWith
    (fun o t => if forceFullGrid = true ∨ (0 ≤ o ∧ 0 ≤ t) then max (o * decay) t else o)
    old tmp

/-- `torch.mean(density_grid.clamp(min=0))` (renderer.py lines 584-585): the
mean over all cells of the values clamped below at 0. -/
def meanDensity (g : List ℚ) : ℚ :=
  (g.map (fun x => max x 0)).sum / (g.length : ℚ)

/-- Modelled from the spec: `raymarching.packbits` is part of the external
CUDA extension (not under src).  Per the spec (section 4.1.3) the bitfield is
repacked from the density grid with "voxel bit = 1 iff its value exceeds the
threshold". -/
def packbits (g : List ℚ) (thresh : ℚ) : List Bool :=
  g.map (fun x => decide (thresh < x))

/-- The state-updating tail of `update_extra_state` (renderer.py lines
580-589).  The sampled grid `tmp` is the `tmp_grid` produced by the full or
partial resampling pass (lines 517-578; it queries the learned density field
at jittered voxel centers, so it is an input here); `-1` marks voxels that
pass did not sample.  After combining, `mean_density` is recomputed and the
bitfield is repacked with threshold `min(mean_density, density_thresh)`. -/
def update_extra_state (s : GridState) (tmp : List ℚ) (decay : ℚ)
    (forceFullGrid : Bool) (densityThresh : ℚ) : GridState :=
  let g := gridCombine decay forceFullGrid s.grid tmp
  let md := meanDensity g
  { grid := g, mean_density := md, bitfield := packbits g (min md densityThresh) }

/-- A sequence of `update_extra_state` calls without `force_full_grid`, each
step supplying its sampled `tmp_grid` and its `decay`. -/
def runUpdates (densityThresh : ℚ) (s : GridState) (steps : List (List ℚ × ℚ)) :
    GridState :=
  steps.foldl (fun st p => update_extra_state st p.1 p.2 false densityThresh) s

end NeRF

namespace SH

/-- Spherical-harmonics constant `C0` (spherical_harmonics.py line 3). -/
def C0 : ℚ := 0.28209479177387814

/-- Spherical-harmonics constant `C1` (spherical_harmonics.py line 4). -/
def C1 : ℚ := 0.4886025119029199

/-- Spherical-harmonics constants `C2` (spherical_harmonics.py lines 5-11). -/
def C2 : List ℚ :=
  [1.0925484305920792,
   -1.0925484305920792,
   0.31539156525252005,
   -1.0925484305920792,
   0.5462742152960396]

/-- Spherical-harmonics constants `C3` (spherical_harmonics.py lines 12-20). -/
def C3 : List ℚ :=
  [-0.5900435899266435,
   2.890611442640554,
   -0.4570457994644658,
   0.3731763325901154,
   -0.4570457994644658,
   1.445305721320277,
   -0.5900435899266435]

/-- Spherical-harmonics constants `C4` (spherical_harmonics.py lines 21-31). -/
def C4 : List ℚ :=
  [2.5033429417967046,
   -1.7701307697799304,
   0.9461746957575601,
   -0.6690465435572892,
   0.10578554691520431,
   -0.6690465435572892,
   0.47308734787878004,
   -1.7701307697799304,
   0.6258357354491761]

/-- The accumulation body of `evaluate_spherical_harmonics`
(spherical_harmonics.py lines 43-89) on one element, with the degree-4
constant array abstracted as the parameter `c4` so that (non-)dependence on it
can be stated; the source instantiates it with `C4`. -/
def shEvalAux (c4 : List ℚ) (degree : ℤ) (sh : List ℚ) (v : ℚ × ℚ × ℚ) : ℚ :=
  let x := v.1
  let y := v.2.1
  let z := v.2.2
  let r0 := C0 * sh.getD 0 0
  if 0 < degree then
    let r1 := r0 - C1 * y * sh.getD 1 0 + C1 * z * sh.getD 2 0 - C1 * x * sh.getD 3 0
    if 1 < degree then
      let xx := x * x
      let yy := y * y
      let zz := z * z
      let xy := x * y
      let yz := y * z
      let xz := x * z
      let r2 := r1
        + C2.getD 0 0 * xy * sh.getD 4 0
        + C2.getD 1 0 * yz * sh.getD 5 0
        + C2.getD 2 0 * (2 * zz - xx - yy) * sh.getD 6 0
        + C2.getD 3 0 * xz * sh.getD 7 0
        + C2.getD 4 0 * (xx - yy) * sh.getD 8 0
      if 2 < degree then
        let r3 := r2
          + C3.getD 0 0 * y * (3 * xx - yy) * sh.getD 9 0
          + C3.getD 1 0 * xy * z * sh.getD 10 0
          + C3.getD 2 0 * y * (4 * zz - xx - yy) * sh.getD 11 0
          + C3.getD 3 0 * z * (2 * zz - 3 * xx - 3 * yy) * sh.getD 12 0
          + C3.getD 4 0 * x * (4 * zz - xx - yy) * sh.getD 13 0
          + C3.getD 5 0 * z * (xx - yy) * sh.getD 14 0
          + C3.getD 6 0 * x * (xx - 3 * yy) * sh.getD 15 0
        if 3 < degree then
          r3
            + c4.getD 0 0 * xy * (xx - yy) * sh.getD 16 0
            + c4.getD 1 0 * yz * (3 * xx - yy) * sh.getD 17 0
            + c4.getD 2 0 * xy * (7 * zz - 1) * sh.getD 18 0
            + c4.getD 3 0 * yz * (7 * zz - 3) * sh.getD 19 0
            + c4.getD 4 0 * (zz * (35 * zz - 30) + 3) * sh.getD 20 0
            + c4.getD 5 0 * xz * (7 * zz - 3) * sh.getD 21 0
            + c4.getD 6 0 * (xx - yy) * (7 * zz - 1) * sh.getD 22 0
            + c4.getD 7 0 * xz * (xx - 3 * yy) * sh.getD 23 0
            + c4.getD 8 0 * (xx * (xx - 3 * yy) - yy * (3 * xx - yy)) * sh.getD 24 0
        else r3
      else r2
    else r1
  else r0

/-- `evaluate_spherical_harmonics` (spherical_harmonics.py lines 34-89) on one
element of the batch.  The two input-validating asserts (lines 37-41) run
before any computation on the inputs; an assertion failure is modelled as
`Except.error` with the assert message. -/
def evaluate_spherical_harmonics (degree : ℤ) (sh_coeffs : List ℚ)
    (viewdirs : ℚ × ℚ × ℚ) : Except String ℚ :=
  if ¬ (4 > degree ∧ degree ≥ 0) then
    Except.error "only degrees 0, 1, 2, and 3 are supported :)"
  else if ¬ ((degree + 1) ^ 2 = (sh_coeffs.length : ℤ)) then
    Except.error "number of sh_coeffs do not match the expected num_coeffs for requested degree"
  else
    Except.ok (shEvalAux C4 degree sh_coeffs viewdirs)

end SH

namespace NeRF

theorem gridCombine_length (decay : ℚ) (f : Bool) (old tmp : List ℚ)
    (hlen : tmp.length = old.length) :
    (gridCombine decay f old tmp).length = old.length := by
  simp [gridCombine, hlen]

theorem gridCombine_getD (decay : ℚ) (f : Bool) (old tmp : List ℚ) (v : ℕ)
    (hlen : tmp.length = old.length) (hv : v < old.length) :
    (gridCombine decay f old tmp).getD v 0
      = if f = true ∨ (0 ≤ old.getD v 0 ∧ 0 ≤ tmp.getD v 0)
        then max (old.getD v 0 * decay) (tmp.getD v 0)
        else old.getD v 0 := by
  have hv2 : v < (gridCombine decay f old tmp).length := by
    rw [gridCombine_length decay f old tmp hlen]; exact hv
  have hvt : v < tmp.length := by omega
  rw [List.getD_eq_getElem _ _ hv2, List.getD_eq_getElem _ _ hv,
    List.getD_eq_getElem _ _ hvt]
  simp [gridCombine, List.getElem_zipWith,
    List.getD_eq_getElem _ _ hv, List.getD_eq_getElem _ _ hvt]

end NeRF

/-- C5: in `update_extra_state` without `force_full_grid`, a voxel whose old
value and sampled value are both non-negative is set to
`max(old * decay, sampled)`, and a voxel where either value is negative keeps
its previous value. -/
theorem update_combine_rule (s : NeRF.GridState) (tmp : List ℚ) (decay th : ℚ)
    (v : ℕ) (hlen : tmp.length = s.grid.length) (hv : v < s.grid.length) :
    ((0 ≤ s.grid.getD v 0 ∧ 0 ≤ tmp.getD v 0) →
        (NeRF.update_extra_state s tmp decay false th).grid.getD v 0
          = max (s.grid.getD v 0 * decay) (tmp.getD v 0))
      ∧ ((s.grid.getD v 0 < 0 ∨ tmp.getD v 0 < 0) →
        (NeRF.update_extra_state s tmp decay false th).grid.getD v 0
          = s.grid.getD v 0) := by
  have hg : (NeRF.update_extra_state s tmp decay false th).grid
      = NeRF.gridCombine decay false s.grid tmp := rfl
  constructor
  · intro h
    rw [hg, NeRF.gridCombine_getD decay false s.grid tmp v hlen hv, if_pos (Or.inr h)]
  · intro h
    rw [hg, NeRF.gridCombine_getD decay false s.grid tmp v hlen hv, if_neg]
    rintro (hf | ⟨h1, h2⟩)
    · exact Bool.false_ne_true hf
    · rcases h with h | h
      · exact absurd h1 (not_le.mpr h)
      · exact absurd h2 (not_le.mpr h)

theorem update_combine_rule_witness :
    ((0 ≤ ([(2 : ℚ), -1]).getD 0 0 ∧ 0 ≤ ([(1 : ℚ), 5]).getD 0 0) →
        (NeRF.update_extra_state ⟨[(2 : ℚ), -1], 0, []⟩ [(1 : ℚ), 5] (1/2) false 1).grid.getD 0 0
          = max (([(2 : ℚ), -1]).getD 0 0 * (1/2)) (([(1 : ℚ), 5]).getD 0 0))
      ∧ ((([(2 : ℚ), -1]).getD 0 0 < 0 ∨ ([(1 : ℚ), 5]).getD 0 0 < 0) →
        (NeRF.update_extra_state ⟨[(2 : ℚ), -1], 0, []⟩ [(1 : ℚ), 5] (1/2) false 1).grid.getD 0 0
          = ([(2 : ℚ), -1]).getD 0 0) :=
  update_combine_rule ⟨[(2 : ℚ), -1], 0, []⟩ [(1 : ℚ), 5] (1/2) 1 0 rfl (by simp)

/-- C6: after every grid update, `mean_density` is the mean over all cells of
the density grid clamped below at zero (it is in particular non-negative), and
the bitfield is repacked so that a voxel's bit is set exactly when its value
exceeds `min(mean_density, density_thresh)`. -/
theorem mean_density_and_bitfield_repack (s : NeRF.GridState) (tmp : List ℚ)
    (decay th : ℚ) (force : Bool) :
    (NeRF.update_extra_state s tmp decay force th).mean_density
        = (((NeRF.update_extra_state s tmp decay force th).grid.map
            (fun x => max x 0)).sum)
          / (((NeRF.update_extra_state s tmp decay force th).grid.length : ℚ))
      ∧ 0 ≤ (NeRF.update_extra_state s tmp decay force th).mean_density
      ∧ (NeRF.update_extra_state s tmp decay force th).bitfield
        = (NeRF.update_extra_state s tmp decay force th).grid.map
            (fun x =>
              decide (min (NeRF.update_extra_state s tmp decay force th).mean_density th < x)) := by
  refine ⟨rfl, ?_, rfl⟩
  apply div_nonneg
  · apply List.sum_nonneg
    intro x hx
    rcases List.mem_map.mp hx with ⟨y, _, hy⟩
    rw [← hy]
    exact le_max_right y 0
  · exact Nat.cast_nonneg _

/-- C8: a voxel carrying the invalid marker `-1` (as set by
`mark_untrained_grid`) is never changed by any later sequence of
`update_extra_state` calls (without the `force_full_grid` reset), whatever
the sampled grids and decays are. -/
theorem untrained_voxel_stays_invalid (th : ℚ) (s : NeRF.GridState)
    (steps : List (List ℚ × ℚ)) (v : ℕ)
    (hsteps : ∀ p ∈ steps, p.1.length = s.grid.length)
    (hv : s.grid.getD v 0 = -1) :
    (NeRF.runUpdates th s steps).grid.getD v 0 = -1 := by
  induction steps generalizing s with
  | nil => simpa [NeRF.runUpdates] using hv
  | cons p rest ih =>
    have hvlt : v < s.grid.length := by
      by_contra hc
      rw [List.getD_eq_default _ _ (by omega)] at hv
      norm_num at hv
    have hlen : p.1.length = s.grid.length := hsteps p (List.mem_cons_self _ _)
    have hg : (NeRF.update_extra_state s p.1 p.2 false th).grid
        = NeRF.gridCombine p.2 false s.grid p.1 := rfl
    have hstep : (NeRF.update_extra_state s p.1 p.2 false th).grid.getD v 0 = -1 := by
      rw [hg, NeRF.gridCombine_getD p.2 false s.grid p.1 v hlen hvlt, if_neg]
      · exact hv
      · rintro (hf | ⟨h1, _⟩)
        · exact Bool.false_ne_true hf
        · rw [hv] at h1; norm_num at h1
    have hlen2 : (NeRF.update_extra_state s p.1 p.2 false th).grid.length
        = s.grid.length := by
      rw [hg]; exact NeRF.gridCombine_length p.2 false s.grid p.1 hlen
    have hrest : ∀ q ∈ rest,
        q.1.length = (NeRF.update_extra_state s p.1 p.2 false th).grid.length := by
      intro q hq
      rw [hlen2]
      exact hsteps q (List.mem_cons_of_mem _ hq)
    have : NeRF.runUpdates th s (p :: rest)
        = NeRF.runUpdates th (NeRF.update_extra_state s p.1 p.2 false th) rest := rfl
    rw [this]
    exact ih _ hrest hstep

theorem untrained_voxel_stays_invalid_witness :
    (NeRF.runUpdates 1 ⟨[(-1 : ℚ), 0], 0, []⟩ [([(5 : ℚ), 5], 9/10)]).grid.getD 0 0 = -1 :=
  untrained_voxel_stays_invalid 1 ⟨[(-1 : ℚ), 0], 0, []⟩ [([(5 : ℚ), 5], 9/10)] 0
    (by intro p hp; simp at hp; rw [hp]; rfl) rfl

/-- C9: `evaluate_spherical_harmonics` signals an invalid-input error exactly
when the degree is outside `[0, 3]` or the coefficient count differs from
`(degree + 1)^2`; the validating asserts run before any computation on the
inputs. -/
theorem sh_fails_iff_invalid (degree : ℤ) (sh : List ℚ) (v : ℚ × ℚ × ℚ) :
    (∃ msg, SH.evaluate_spherical_harmonics degree sh v = Except.error msg)
      ↔ (degree < 0 ∨ 3 < degree ∨ (degree + 1) ^ 2 ≠ (sh.length : ℤ)) := by
  by_cases h1 : 4 > degree ∧ degree ≥ 0
  · by_cases h2 : (degree + 1) ^ 2 = (sh.length : ℤ)
    · have hok : SH.evaluate_spherical_harmonics degree sh v
          = Except.ok (SH.shEvalAux SH.C4 degree sh v) := by
        unfold SH.evaluate_spherical_harmonics
        rw [if_neg (not_not_intro h1), if_neg (not_not_intro h2)]
      rw [hok]
      constructor
      · rintro ⟨msg, hmsg⟩
        exact absurd hmsg (by simp)
      · rintro (h | h | h)
        · omega
        · omega
        · exact absurd h2 h
    · have herr : SH.evaluate_spherical_harmonics degree sh v
          = Except.error
            "number of sh_coeffs do not match the expected num_coeffs for requested degree" := by
        unfold SH.evaluate_spherical_harmonics
        rw [if_neg (not_not_intro h1), if_pos h2]
      rw [herr]
      exact ⟨fun _ => Or.inr (Or.inr h2), fun _ => ⟨_, rfl⟩⟩
  · have herr : SH.evaluate_spherical_harmonics degree sh v
        = Except.error "only degrees 0, 1, 2, and 3 are supported :)" := by
      unfold SH.evaluate_spherical_harmonics
      rw [if_pos h1]
    rw [herr]
    constructor
    · intro _
      by_cases hd : 0 ≤ degree
      · exact Or.inr (Or.inl (by omega))
      · exact Or.inl (by omega)
    · intro _
      exact ⟨_, rfl⟩

/-- C10: whenever the inputs pass validation (degree in `[0, 3]` with matching
coefficient count), the result of `evaluate_spherical_harmonics` does not
depend on the degree-4 constant array: the guarded `degree > 3` branch is
unreachable, so evaluating the body with any `c4` array gives the same
result. -/
theorem sh_result_independent_of_C4 (degree : ℤ) (sh : List ℚ) (v : ℚ × ℚ × ℚ)
    (c4 : List ℚ) (h0 : 0 ≤ degree) (h3 : degree ≤ 3)
    (hlen : (degree + 1) ^ 2 = (sh.length : ℤ)) :
    SH.evaluate_spherical_harmonics degree sh v
      = Except.ok (SH.shEvalAux c4 degree sh v) := by
  unfold SH.evaluate_spherical_harmonics
  rw [if_neg (not_not_intro ⟨by omega, h0⟩), if_neg (not_not_intro hlen)]
  have hne : ¬(3 < degree) := by omega
  unfold SH.shEvalAux
  simp only [if_neg hne]

theorem sh_result_independent_of_C4_witness :
    SH.evaluate_spherical_harmonics 0 [1] (0, 0, 1)
      = Except.ok (SH.shEvalAux [42] 0 [1] (0, 0, 1)) :=
  sh_result_independent_of_C4 0 [1] (0, 0, 1) [42] (by omega) (by omega) (by norm_num)

namespace NeRF

theorem chunksOf_flatten {β : Type} (c : ℕ) : (l : List β) → (chunksOf c l).flatten = l
  | [] => by simp [chunksOf]
  | x :: xs => by
    rw [chunksOf]
    simp only [List.flatten_cons]
    rw [chunksOf_flatten c (xs.drop (c - 1))]
    simp [List.take_append_drop]
  termination_by l => l.length
  decreasing_by simp; omega

end NeRF

/-- C1: on the non-cuda path, rendering with staged chunking (any chunk size
`max_ray_batch >= 1`) produces exactly the same per-ray depth, image and mask
outputs as rendering the whole batch unchunked. -/
theorem staged_render_eq_unstaged {α : Type} [LinearOrderedField α]
    (fexp : α → α) (sigf : NeRF.Vec3 α → α) (colf : NeRF.Vec3 α → NeRF.Vec3 α)
    (bgf : NeRF.Ray α → NeRF.Vec3 α) (cfg : NeRF.RenderCfg α) (c : ℕ)
    (rows : List (List (NeRF.Ray α))) (hc : 1 ≤ c) :
    NeRF.render fexp sigf colf bgf cfg true c rows
      = NeRF.render fexp sigf colf bgf cfg false c rows := by
  unfold NeRF.render
  rw [if_pos rfl]
  congr 1
  funext row
  unfold NeRF.run
  rw [← List.map_flatten, NeRF.chunksOf_flatten]

theorem staged_render_eq_unstaged_witness :
    NeRF.render (fun x : ℚ => 1 - x) (fun _ => 0) (fun _ => (0, 0, 0))
        (fun _ => (1, 1, 1)) ⟨4, 2, 1, 1⟩ true 1
        [[⟨(0, 0, 0), (0, 0, 1), 1, 2⟩, ⟨(0, 0, 0), (0, 1, 0), 1, 3⟩]]
      = NeRF.render (fun x : ℚ => 1 - x) (fun _ => 0) (fun _ => (0, 0, 0))
        (fun _ => (1, 1, 1)) ⟨4, 2, 1, 1⟩ false 1
        [[⟨(0, 0, 0), (0, 0, 1), 1, 2⟩, ⟨(0, 0, 0), (0, 1, 0), 1, 3⟩]] :=
  staged_render_eq_unstaged (fun x : ℚ => 1 - x) (fun _ => 0) (fun _ => (0, 0, 0))
    (fun _ => (1, 1, 1)) ⟨4, 2, 1, 1⟩ 1
    [[⟨(0, 0, 0), (0, 0, 1), 1, 2⟩, ⟨(0, 0, 0), (0, 1, 0), 1, 3⟩]] (by omega)

namespace NeRF

variable {α : Type} [LinearOrderedField α]

theorem insertPair_perm (p : α × ℕ) (l : List (α × ℕ)) :
    (insertPair p l).Perm (p :: l) := by
  induction l with
  | nil => exact List.Perm.refl _
  | cons q rest ih =>
    unfold insertPair
    split_ifs with h
    · exact (ih.cons q).trans (List.Perm.swap p q rest)
    · exact List.Perm.refl _

theorem sortPairs_perm (l : List (α × ℕ)) : (sortPairs l).Perm l := by
  induction l with
  | nil => exact List.Perm.refl _
  | cons p rest ih => exact (insertPair_perm p (sortPairs rest)).trans (ih.cons p)

theorem insertPair_pairwise (p : α × ℕ) (l : List (α × ℕ))
    (h : List.Pairwise (fun a b : α × ℕ => a.1 ≤ b.1) l) :
    List.Pairwise (fun a b : α × ℕ => a.1 ≤ b.1) (insertPair p l) := by
  induction l with
  | nil => simp [insertPair]
  | cons q rest ih =>
    rw [List.pairwise_cons] at h
    unfold insertPair
    split_ifs with hle
    · rw [List.pairwise_cons]
      constructor
      · intro b hb
        rcases List.mem_cons.mp ((insertPair_perm p rest).mem_iff.mp hb) with rfl | hb2
        · exact hle
        · exact h.1 b hb2
      · exact ih h.2
    · rw [List.pairwise_cons]
      constructor
      · intro b hb
        rcases List.mem_cons.mp hb with rfl | hb2
        · exact le_of_not_le hle
        · exact le_trans (le_of_not_le hle) (h.1 b hb2)
      · rw [List.pairwise_cons]
        exact ⟨h.1, h.2⟩

theorem sortPairs_pairwise (l : List (α × ℕ)) :
    List.Pairwise (fun a b : α × ℕ => a.1 ≤ b.1) (sortPairs l) := by
  induction l with
  | nil => simp [sortPairs]
  | cons p rest ih => exact insertPair_pairwise p (sortPairs rest) ih

theorem getD_of_mem_zip_range {l : List α} {q : α × ℕ} (d : α)
    (hq : q ∈ l.zip (List.range l.length)) :
    l.getD q.2 d = q.1 ∧ q.2 < l.length := by
  rcases List.mem_iff_getElem.mp hq with ⟨i, hi, hget⟩
  have hi2 : i < l.length := by
    have : (l.zip (List.range l.length)).length = l.length := by simp
    omega
  rw [List.getElem_zip, List.getElem_range] at hget
  rw [← hget]
  exact ⟨List.getD_eq_getElem l d hi2, hi2⟩

theorem sortWithIndex_lengths (l : List α) :
    (sortWithIndex l).1.length = l.length ∧ (sortWithIndex l).2.length = l.length := by
  have hperm := sortPairs_perm (l.zip (List.range l.length))
  have hlen : (sortPairs (l.zip (List.range l.length))).length = l.length := by
    rw [hperm.length_eq]; simp
  constructor <;> simp [sortWithIndex, hlen]

end NeRF

/-- C7: the importance-resampling merge sorts the concatenated per-ray sample
distances into ascending order via a permutation of the input slots, and
`gather` with the same sort index keeps every per-sample attribute associated
with its original distance: output slot `k` carries exactly the distance and
the attribute of the input sample the sort placed at slot `k`. -/
theorem merge_preserves_association {β : Type} (z1 z2 : List ℚ) (attrs : List β)
    (d : β) (k : ℕ) (hk : k < (z1 ++ z2).length) :
    List.Sorted (fun a b : ℚ => a ≤ b) (NeRF.sortWithIndex (z1 ++ z2)).1
      ∧ (NeRF.sortWithIndex (z1 ++ z2)).2.Perm (List.range (z1 ++ z2).length)
      ∧ (NeRF.sortWithIndex (z1 ++ z2)).1.getD k 0
          = (z1 ++ z2).getD ((NeRF.sortWithIndex (z1 ++ z2)).2.getD k 0) 0
      ∧ (NeRF.gather attrs (NeRF.sortWithIndex (z1 ++ z2)).2 d).getD k d
          = attrs.getD ((NeRF.sortWithIndex (z1 ++ z2)).2.getD k 0) d := by
  set l := z1 ++ z2 with hl
  have hperm := NeRF.sortPairs_perm (l.zip (List.range l.length))
  have hslen : (NeRF.sortPairs (l.zip (List.range l.length))).length = l.length := by
    rw [hperm.length_eq]; simp
  have hks : k < (NeRF.sortPairs (l.zip (List.range l.length))).length := by omega
  refine ⟨?_, ?_, ?_, ?_⟩
  · show List.Sorted _ (List.map Prod.fst (NeRF.sortPairs (l.zip (List.range l.length))))
    rw [List.Sorted, List.pairwise_map]
    exact NeRF.sortPairs_pairwise (l.zip (List.range l.length))
  · show (List.map Prod.snd (NeRF.sortPairs (l.zip (List.range l.length)))).Perm _
    have h2 : List.map Prod.snd (l.zip (List.range l.length)) = List.range l.length :=
      List.map_snd_zip l (List.range l.length) (by simp)
    refine (hperm.map Prod.snd).trans ?_
    rw [h2]
  · have hmem : (NeRF.sortPairs (l.zip (List.range l.length)))[k] ∈
        l.zip (List.range l.length) :=
      hperm.mem_iff.mp (List.getElem_mem hks)
    have hassoc := NeRF.getD_of_mem_zip_range (0 : ℚ) hmem
    have hidx : (List.map Prod.snd (NeRF.sortPairs (l.zip (List.range l.length)))).getD k 0
        = (NeRF.sortPairs (l.zip (List.range l.length)))[k].2 := by
      rw [List.getD_eq_getElem _ _ (by simpa using hks), List.getElem_map]
    have hfst : (List.map Prod.fst (NeRF.sortPairs (l.zip (List.range l.length)))).getD k 0
        = (NeRF.sortPairs (l.zip (List.range l.length)))[k].1 := by
      rw [List.getD_eq_getElem _ _ (by simpa using hks), List.getElem_map]
    show (List.map Prod.fst (NeRF.sortPairs (l.zip (List.range l.length)))).getD k 0
      = l.getD ((List.map Prod.snd (NeRF.sortPairs (l.zip (List.range l.length)))).getD k 0) 0
    rw [hfst, hidx]
    exact hassoc.1.symm
  · have hidx : (List.map Prod.snd (NeRF.sortPairs (l.zip (List.range l.length)))).getD k 0
        = (NeRF.sortPairs (l.zip (List.range l.length)))[k].2 := by
      rw [List.getD_eq_getElem _ _ (by simpa using hks), List.getElem_map]
    show (List.map (fun i => attrs.getD i d)
        (List.map Prod.snd (NeRF.sortPairs (l.zip (List.range l.length))))).getD k d
      = attrs.getD ((List.map Prod.snd (NeRF.sortPairs (l.zip (List.range l.length)))).getD k 0) d
    have hg : (List.map (fun i => attrs.getD i d)
        (List.map Prod.snd (NeRF.sortPairs (l.zip (List.range l.length))))).getD k d
        = attrs.getD ((NeRF.sortPairs (l.zip (List.range l.length)))[k].2) d := by
      rw [List.getD_eq_getElem _ _ (by simpa using hks), List.getElem_map, List.getElem_map]
    rw [hg, hidx]

theorem merge_preserves_association_witness :
    List.Sorted (fun a b : ℚ => a ≤ b) (NeRF.sortWithIndex ([(2 : ℚ), 1] ++ [3/2])).1
      ∧ (NeRF.sortWithIndex ([(2 : ℚ), 1] ++ [3/2])).2.Perm
          (List.range ([(2 : ℚ), 1] ++ [3/2]).length)
      ∧ (NeRF.sortWithIndex ([(2 : ℚ), 1] ++ [3/2])).1.getD 0 0
          = ([(2 : ℚ), 1] ++ [3/2]).getD
              ((NeRF.sortWithIndex ([(2 : ℚ), 1] ++ [3/2])).2.getD 0 0) 0
      ∧ (NeRF.gather [10, 20, 30] (NeRF.sortWithIndex ([(2 : ℚ), 1] ++ [3/2])).2 0).getD 0 0
          = ([10, 20, 30] : List ℕ).getD
              ((NeRF.sortWithIndex ([(2 : ℚ), 1] ++ [3/2])).2.getD 0 0) 0 :=
  merge_preserves_association [(2 : ℚ), 1] [3/2] [10, 20, 30] 0 0 (by simp)

namespace NeRF

variable {α : Type} [LinearOrderedField α]

theorem cumsumFrom_length (acc : α) (l : List α) :
    (cumsumFrom acc l).length = l.length := by
  induction l generalizing acc with
  | nil => rfl
  | cons x xs ih => simp [cumsumFrom, ih]

theorem pdfCdf_length (weights : List α) :
    (pdfCdf weights).length = weights.length + 1 := by
  simp [pdfCdf, cumsum, cumsumFrom_length]

theorem cumsumFrom_chain (acc : α) (l : List α) (h : ∀ x ∈ l, 0 ≤ x) :
    List.Chain' (fun a b : α => a ≤ b) (acc :: cumsumFrom acc l) := by
  induction l generalizing acc with
  | nil => simp [cumsumFrom]
  | cons x xs ih =>
    rw [cumsumFrom, List.chain'_cons]
    constructor
    · have := h x (List.mem_cons_self _ _)
      linarith
    · exact ih (acc + x) (fun y hy => h y (List.mem_cons_of_mem _ hy))

theorem pdfCdf_sorted (weights : List α) (hw : ∀ x ∈ weights, 0 ≤ x) :
    List.Sorted (fun a b : α => a ≤ b) (pdfCdf weights) := by
  have hS : 0 ≤ (weights.map (fun x => x + eps5)).sum := by
    apply List.sum_nonneg
    intro x hx
    rcases List.mem_map.mp hx with ⟨w, hwmem, hwx⟩
    have h5 : (0 : α) < eps5 := by norm_num [eps5]
    have := hw w hwmem
    linarith [hwx ▸ (by linarith : (0 : α) ≤ w + eps5)]
  have hpdf : ∀ x ∈ (weights.map (fun x => x + eps5)).map
      (fun x => x / (weights.map (fun x => x + eps5)).sum), 0 ≤ x := by
    intro x hx
    rcases List.mem_map.mp hx with ⟨y, hymem, hyx⟩
    rcases List.mem_map.mp hymem with ⟨w, hwmem, hwy⟩
    have h5 : (0 : α) < eps5 := by norm_num [eps5]
    have hw0 := hw w hwmem
    have hy0 : 0 ≤ y := by rw [← hwy]; linarith
    rw [← hyx]
    exact div_nonneg hy0 hS
  rw [List.Sorted, ← List.chain'_iff_pairwise]
  exact cumsumFrom_chain 0 _ hpdf

theorem ssRight_le_length (u : α) (l : List α) : ssRight u l ≤ l.length := by
  induction l with
  | nil => simp [ssRight]
  | cons c rest ih =>
    rw [ssRight]
    split_ifs <;> simp <;> omega

theorem ssRight_eq_zero (u : α) (l : List α) (h : ∀ x ∈ l, ¬ x ≤ u) :
    ssRight u l = 0 := by
  induction l with
  | nil => rfl
  | cons c rest ih =>
    rw [ssRight, if_neg (h c (List.mem_cons_self _ _)),
      ih (fun x hx => h x (List.mem_cons_of_mem _ hx))]

theorem ssRight_lower (u : α) (l : List α)
    (hs : List.Sorted (fun a b : α => a ≤ b) l) (i : ℕ) (hi : i < ssRight u l) :
    l.getD i 0 ≤ u := by
  induction l generalizing i with
  | nil => simp [ssRight] at hi
  | cons c rest ih =>
    rw [List.sorted_cons] at hs
    rw [ssRight] at hi
    by_cases hc : c ≤ u
    · rw [if_pos hc] at hi
      cases i with
      | zero => simpa using hc
      | succ j =>
        have : j < ssRight u rest := by omega
        simpa using ih hs.2 j this
    · rw [if_neg hc, ssRight_eq_zero u rest
        (fun x hx hxu => hc (le_trans (hs.1 x hx) hxu))] at hi
      omega

theorem ssRight_upper (u : α) (l : List α)
    (hs : List.Sorted (fun a b : α => a ≤ b) l) (i : ℕ)
    (h1 : ssRight u l ≤ i) (h2 : i < l.length) : u < l.getD i 0 := by
  induction l generalizing i with
  | nil => simp at h2
  | cons c rest ih =>
    rw [List.sorted_cons] at hs
    rw [ssRight] at h1
    by_cases hc : c ≤ u
    · rw [if_pos hc] at h1
      cases i with
      | zero => omega
      | succ j =>
        have ha : ssRight u rest ≤ j := by omega
        have hb : j < rest.length := by simpa using h2
        simpa using ih hs.2 j ha hb
    · cases i with
      | zero => simpa using not_le.mp hc
      | succ j =>
        have hb : j < rest.length := by simpa using h2
        have hmem : rest.getD j 0 ∈ rest := by
          rw [List.getD_eq_getElem _ _ hb]
          exact List.getElem_mem hb
        calc u < c := not_le.mp hc
          _ ≤ rest.getD j 0 := hs.1 _ hmem
          _ = (c :: rest).getD (j + 1) 0 := by simp

theorem sorted_getD_le (l : List α) (hs : List.Sorted (fun a b : α => a ≤ b) l)
    (i j : ℕ) (hij : i ≤ j) (hj : j < l.length) (d : α) :
    l.getD i d ≤ l.getD j d := by
  rcases Nat.eq_or_lt_of_le hij with rfl | hlt
  · exact le_refl _
  · have hi : i < l.length := by omega
    rw [List.getD_eq_getElem _ _ hi, List.getD_eq_getElem _ _ hj]
    exact List.pairwise_iff_getElem.mp hs i j hi hj hlt

theorem sample_pdf_one_in_range (bins cdf : List α) (uu : α)
    (hsb : List.Sorted (fun a b : α => a ≤ b) bins)
    (hsc : List.Sorted (fun a b : α => a ≤ b) cdf)
    (hlen : bins.length = cdf.length) (hne : cdf ≠ []) :
    bins.getD 0 0 ≤ sample_pdf_one bins cdf uu
      ∧ sample_pdf_one bins cdf uu ≤ bins.getD (bins.length - 1) 0 := by
  have hpos : 0 < cdf.length := List.length_pos.mpr hne
  have hile : ssRight uu cdf ≤ cdf.length := ssRight_le_length uu cdf
  set inds := ssRight uu cdf with hi
  set below := inds - 1 with hbl
  set above := min (cdf.length - 1) inds with hab
  have heq : sample_pdf_one bins cdf uu
      = bins.getD below 0 + ((uu - cdf.getD below 0) /
          (if cdf.getD above 0 - cdf.getD below 0 < eps5 then 1
           else cdf.getD above 0 - cdf.getD below 0))
        * (bins.getD above 0 - bins.getD below 0) := rfl
  have hbelow_lt : below < cdf.length := by omega
  have habove_lt : above < cdf.length := by omega
  have hb0 : bins.getD 0 0 ≤ bins.getD below 0 :=
    sorted_getD_le bins hsb 0 below (Nat.zero_le _) (by omega) 0
  have hb1 : bins.getD above 0 ≤ bins.getD (bins.length - 1) 0 :=
    sorted_getD_le bins hsb above (bins.length - 1) (by omega) (by omega) 0
  have hb1b : bins.getD below 0 ≤ bins.getD (bins.length - 1) 0 :=
    sorted_getD_le bins hsb below (bins.length - 1) (by omega) (by omega) 0
  by_cases hcase : 1 ≤ inds ∧ inds ≤ cdf.length - 1
  · have habove : above = inds := by omega
    have hcdf0 : cdf.getD below 0 ≤ uu := ssRight_lower uu cdf hsc below (by omega)
    have hcdf1 : uu < cdf.getD above 0 := by
      rw [habove]
      exact ssRight_upper uu cdf hsc inds (le_refl _) (by omega)
    have hbb : bins.getD below 0 ≤ bins.getD above 0 :=
      sorted_getD_le bins hsb below above (by omega) (by omega) 0
    have ht : 0 ≤ (uu - cdf.getD below 0) /
          (if cdf.getD above 0 - cdf.getD below 0 < eps5 then 1
           else cdf.getD above 0 - cdf.getD below 0)
        ∧ (uu - cdf.getD below 0) /
          (if cdf.getD above 0 - cdf.getD below 0 < eps5 then 1
           else cdf.getD above 0 - cdf.getD below 0) ≤ 1 := by
      by_cases hdeg : cdf.getD above 0 - cdf.getD below 0 < eps5
      · rw [if_pos hdeg]
        have h51 : eps5 ≤ (1 : α) := by norm_num [eps5]
        constructor
        · rw [div_one]; linarith
        · rw [div_one]; linarith
      · rw [if_neg hdeg]
        have hd0 : (0 : α) < cdf.getD above 0 - cdf.getD below 0 := by
          have h5 : (0 : α) < eps5 := by norm_num [eps5]
          linarith [not_lt.mp hdeg]
        constructor
        · exact div_nonneg (by linarith) hd0.le
        · rw [div_le_one hd0]; linarith
    rw [heq]
    constructor
    · have := mul_nonneg ht.1 (sub_nonneg.mpr hbb)
      linarith
    · have := mul_le_of_le_one_left (sub_nonneg.mpr hbb) ht.2
      linarith
  · have habe : above = below := by omega
    rw [heq, habe]
    constructor
    · have h0 : bins.getD below 0 - bins.getD below 0 = 0 := by ring
      rw [h0, mul_zero, add_zero]
      exact hb0
    · have h0 : bins.getD below 0 - bins.getD below 0 = 0 := by ring
      rw [h0, mul_zero, add_zero]
      exact hb1b

end NeRF

/-- C3: for sorted bins and non-negative weights, every sample returned by
`sample_pdf` lies between the first and the last bin edge (the minimum and
maximum of the sorted bins), for arbitrary quantiles; and thanks to the
`1e-5` floor the normalising weight sum is strictly positive even for an
all-zero weights vector, so no division by zero (NaN) can occur. -/
theorem sample_pdf_in_range (bins weights u : List ℚ)
    (hsort : List.Sorted (fun a b : ℚ => a ≤ b) bins)
    (hw : ∀ x ∈ weights, 0 ≤ x) (hwne : weights ≠ [])
    (hlen : bins.length = weights.length + 1) :
    0 < (weights.map (fun x => x + NeRF.eps5)).sum
      ∧ ∀ s ∈ NeRF.sample_pdf bins weights u,
          bins.getD 0 0 ≤ s ∧ s ≤ bins.getD (bins.length - 1) 0 := by
  constructor
  · apply List.sum_pos
    · intro x hx
      rcases List.mem_map.mp hx with ⟨w, hwmem, hwx⟩
      have h5 : (0 : ℚ) < NeRF.eps5 := by norm_num [NeRF.eps5]
      have := hw w hwmem
      rw [← hwx]
      linarith
    · simpa using hwne
  · intro s hs
    rcases List.mem_map.mp hs with ⟨uu, _, huu⟩
    rw [← huu]
    exact NeRF.sample_pdf_one_in_range bins (NeRF.pdfCdf weights) uu hsort
      (NeRF.pdfCdf_sorted weights hw)
      (by rw [hlen, NeRF.pdfCdf_length]) (by simp [NeRF.pdfCdf])

theorem sample_pdf_in_range_witness :
    (0 < (([(0 : ℚ)]).map (fun x => x + NeRF.eps5)).sum
      ∧ ∀ s ∈ NeRF.sample_pdf [(0 : ℚ), 1] [0] [1/2],
          ([(0 : ℚ), 1]).getD 0 0 ≤ s ∧ s ≤ ([(0 : ℚ), 1]).getD (([(0 : ℚ), 1]).length - 1) 0) :=
  sample_pdf_in_range [(0 : ℚ), 1] [0] [1/2]
    (by simp) (by intro x hx; simp at hx; simp [hx]) (by simp) (by simp)

/-- C4 counterexample: with bins `[0, 1, 2]`, weights `[1, 0]` and the quantile
`200003/200004`, the bracketing CDF interval is degenerate (span
`1/100002 < 1e-5`), yet `sample_pdf` returns `200005/200004`, which is not the
interval's lower bin edge `1`: the division is skipped by substituting 1 for
the denominator, but the numerator `u - cdf_low` is still multiplied by the
bin width and added to the lower edge. -/
theorem sample_pdf_degenerate_not_lower_edge :
    NeRF.sample_pdf [(0 : ℚ), 1, 2] [1, 0] [200003/200004] = [200005/200004]
      ∧ (NeRF.pdfCdf [(1 : ℚ), 0]).getD 2 0 - (NeRF.pdfCdf [(1 : ℚ), 0]).getD 1 0
          < NeRF.eps5
      ∧ (200005/200004 : ℚ) ≠ ([(0 : ℚ), 1, 2]).getD 1 0 := by
  refine ⟨?_, ?_, by norm_num⟩
  · norm_num [NeRF.sample_pdf, NeRF.sample_pdf_one, NeRF.pdfCdf, NeRF.cumsum,
      NeRF.cumsumFrom, NeRF.ssRight, NeRF.eps5]
  · norm_num [NeRF.pdfCdf, NeRF.cumsum, NeRF.cumsumFrom, NeRF.eps5]

/-- C4 (amended): whenever the CDF span of the bracketing interval is
degenerate (below `1e-5`), the denominator is treated as 1, so the returned
sample equals `lower_edge + (u - cdf_low) * (upper_edge - lower_edge)`; it
need not equal the interval's lower bin edge exactly, but (for sorted bins and
non-negative weights) it lies at most `1e-5 * (upper_edge - lower_edge)` above
that lower edge. -/
theorem sample_pdf_degenerate_near_lower_edge (bins weights : List ℚ) (uu : ℚ)
    (hsort : List.Sorted (fun a b : ℚ => a ≤ b) bins)
    (hw : ∀ x ∈ weights, 0 ≤ x)
    (hlen : bins.length = weights.length + 1)
    (hind1 : 1 ≤ NeRF.ssRight uu (NeRF.pdfCdf weights))
    (hind2 : NeRF.ssRight uu (NeRF.pdfCdf weights) ≤ weights.length)
    (hdeg : (NeRF.pdfCdf weights).getD (NeRF.ssRight uu (NeRF.pdfCdf weights)) 0
        - (NeRF.pdfCdf weights).getD (NeRF.ssRight uu (NeRF.pdfCdf weights) - 1) 0
        < NeRF.eps5) :
    NeRF.sample_pdf bins weights [uu]
        = [bins.getD (NeRF.ssRight uu (NeRF.pdfCdf weights) - 1) 0
            + (uu - (NeRF.pdfCdf weights).getD (NeRF.ssRight uu (NeRF.pdfCdf weights) - 1) 0)
              * (bins.getD (NeRF.ssRight uu (NeRF.pdfCdf weights)) 0
                 - bins.getD (NeRF.ssRight uu (NeRF.pdfCdf weights) - 1) 0)]
      ∧ bins.getD (NeRF.ssRight uu (NeRF.pdfCdf weights) - 1) 0
          ≤ (NeRF.sample_pdf bins weights [uu]).getD 0 0
      ∧ (NeRF.sample_pdf bins weights [uu]).getD 0 0
            - bins.getD (NeRF.ssRight uu (NeRF.pdfCdf weights) - 1) 0
          ≤ NeRF.eps5 * (bins.getD (NeRF.ssRight uu (NeRF.pdfCdf weights)) 0
              - bins.getD (NeRF.ssRight uu (NeRF.pdfCdf weights) - 1) 0) := by
  have hclen : (NeRF.pdfCdf weights).length = weights.length + 1 :=
    NeRF.pdfCdf_length weights
  have hsc : List.Sorted (fun a b : ℚ => a ≤ b) (NeRF.pdfCdf weights) :=
    NeRF.pdfCdf_sorted weights hw
  set cdf := NeRF.pdfCdf weights with hcdf
  set inds := NeRF.ssRight uu cdf with hi
  have habove : min (cdf.length - 1) inds = inds := by omega
  have heq0 : NeRF.sample_pdf_one bins cdf uu
      = bins.getD (inds - 1) 0 + ((uu - cdf.getD (inds - 1) 0) /
          (if cdf.getD (min (cdf.length - 1) inds) 0 - cdf.getD (inds - 1) 0 < NeRF.eps5
           then 1
           else cdf.getD (min (cdf.length - 1) inds) 0 - cdf.getD (inds - 1) 0))
        * (bins.getD (min (cdf.length - 1) inds) 0 - bins.getD (inds - 1) 0) := rfl
  rw [habove] at heq0
  rw [if_pos hdeg, div_one] at heq0
  have hmap : NeRF.sample_pdf bins weights [uu] = [NeRF.sample_pdf_one bins cdf uu] := rfl
  have hcdf0 : cdf.getD (inds - 1) 0 ≤ uu :=
    NeRF.ssRight_lower uu cdf hsc (inds - 1) (by omega)
  have hcdf1 : uu < cdf.getD inds 0 :=
    NeRF.ssRight_upper uu cdf hsc inds (le_refl _) (by omega)
  have hbb : bins.getD (inds - 1) 0 ≤ bins.getD inds 0 :=
    NeRF.sorted_getD_le bins hsort (inds - 1) inds (by omega) (by omega) 0
  refine ⟨by rw [hmap, heq0], ?_, ?_⟩
  · rw [hmap]
    simp only [List.getD_cons_zero]
    rw [heq0]
    have := mul_nonneg (by linarith : (0 : ℚ) ≤ uu - cdf.getD (inds - 1) 0)
      (sub_nonneg.mpr hbb)
    linarith
  · rw [hmap]
    simp only [List.getD_cons_zero]
    rw [heq0]
    have hspan : uu - cdf.getD (inds - 1) 0 ≤ NeRF.eps5 := by linarith
    have := mul_le_mul_of_nonneg_right hspan (sub_nonneg.mpr hbb)
    linarith

theorem sample_pdf_degenerate_near_lower_edge_witness :
    NeRF.sample_pdf [(0 : ℚ), 1, 2] [1, 0] [200003/200004]
      = [([(0 : ℚ), 1, 2]).getD
            (NeRF.ssRight (200003/200004 : ℚ) (NeRF.pdfCdf [(1 : ℚ), 0]) - 1) 0
          + ((200003/200004 : ℚ)
              - (NeRF.pdfCdf [(1 : ℚ), 0]).getD
                  (NeRF.ssRight (200003/200004 : ℚ) (NeRF.pdfCdf [(1 : ℚ), 0]) - 1) 0)
            * (([(0 : ℚ), 1, 2]).getD
                  (NeRF.ssRight (200003/200004 : ℚ) (NeRF.pdfCdf [(1 : ℚ), 0])) 0
               - ([(0 : ℚ), 1, 2]).getD
                  (NeRF.ssRight (200003/200004 : ℚ) (NeRF.pdfCdf [(1 : ℚ), 0]) - 1) 0)] :=
  (sample_pdf_degenerate_near_lower_edge [(0 : ℚ), 1, 2] [1, 0] (200003/200004)
    (by simp)
    (by intro x hx; simp at hx; rcases hx with h | h <;> norm_num [h])
    rfl
    (by norm_num [NeRF.ssRight, NeRF.pdfCdf, NeRF.cumsum, NeRF.cumsumFrom, NeRF.eps5])
    (by norm_num [NeRF.ssRight, NeRF.pdfCdf, NeRF.cumsum, NeRF.cumsumFrom, NeRF.eps5])
    (by norm_num [NeRF.ssRight, NeRF.pdfCdf, NeRF.cumsum, NeRF.cumsumFrom, NeRF.eps5])).1

namespace NeRF

variable {α : Type} [LinearOrderedField α]

theorem eps15_pos : (0 : α) < eps15 := by norm_num [eps15]

theorem weightsAux_eq (l : List α) (T : α) :
    List.zipWith (fun a c => a * c) l
        ((T :: cumprodFrom T (l.map (fun a => 1 - a + eps15))).dropLast)
      = weightsAux T l := by
  induction l generalizing T with
  | nil => rfl
  | cons a rest ih =>
    show List.zipWith (fun a c => a * c) (a :: rest)
        ((T :: (T * (1 - a + eps15))
          :: cumprodFrom (T * (1 - a + eps15)) (rest.map (fun a => 1 - a + eps15))).dropLast)
      = a * T :: weightsAux (T * (1 - a + eps15)) rest
    rw [List.dropLast_cons₂, List.zipWith_cons_cons, ih (T * (1 - a + eps15))]

theorem compositeWeights_eq (l : List α) : compositeWeights l = weightsAux 1 l := by
  have h1 : cumprod ((1 : α) :: l.map (fun a => 1 - a + eps15))
      = 1 :: cumprodFrom 1 (l.map (fun a => 1 - a + eps15)) := by
    show ((1 : α) * 1) :: cumprodFrom ((1 : α) * 1) (l.map (fun a => 1 - a + eps15)) = _
    rw [one_mul]
  show List.zipWith (fun a c => a * c) l
      ((cumprod ((1 : α) :: l.map (fun a => 1 - a + eps15))).dropLast) = _
  rw [h1]
  exact weightsAux_eq l 1

theorem weightsAux_sum_nonneg (l : List α) (T : α) (hT : 0 ≤ T)
    (h : ∀ a ∈ l, 0 ≤ a ∧ a ≤ 1) : 0 ≤ (weightsAux T l).sum := by
  induction l generalizing T with
  | nil => simp [weightsAux]
  | cons a rest ih =>
    rw [weightsAux, List.sum_cons]
    have ha := h a (List.mem_cons_self _ _)
    have hT2 : 0 ≤ T * (1 - a + eps15) := by
      apply mul_nonneg hT
      have := eps15_pos (α := α)
      linarith [ha.2]
    have h1 := ih (T * (1 - a + eps15)) hT2 (fun x hx => h x (List.mem_cons_of_mem _ hx))
    have h2 : 0 ≤ a * T := mul_nonneg ha.1 hT
    linarith

theorem weightsAux_sum_le (l : List α) (T : α) (hT : 0 ≤ T)
    (h : ∀ a ∈ l, 0 ≤ a ∧ a ≤ 1) :
    (weightsAux T l).sum
      ≤ T * (1 + eps15) ^ l.length
        - T * (l.map (fun a => 1 - a + eps15)).prod := by
  induction l generalizing T with
  | nil => simp [weightsAux]
  | cons a rest ih =>
    rw [weightsAux, List.sum_cons]
    have ha := h a (List.mem_cons_self _ _)
    have heps := eps15_pos (α := α)
    have hT2 : 0 ≤ T * (1 - a + eps15) := by
      apply mul_nonneg hT
      linarith [ha.2]
    have hIH := ih (T * (1 - a + eps15)) hT2 (fun x hx => h x (List.mem_cons_of_mem _ hx))
    have hTk : (1 : α) ≤ (1 + eps15) ^ rest.length := one_le_pow₀ (by linarith)
    have e1 : T * (1 + eps15) ^ (a :: rest).length
        = a * T * (1 + eps15) ^ rest.length
          + T * (1 - a + eps15) * (1 + eps15) ^ rest.length := by
      simp only [List.length_cons, pow_succ]
      ring
    have e2 : a * T ≤ a * T * (1 + eps15) ^ rest.length :=
      le_mul_of_one_le_right (mul_nonneg ha.1 hT) hTk
    have e3 : ((a :: rest).map (fun a => 1 - a + eps15)).prod
        = (1 - a + eps15) * (rest.map (fun a => 1 - a + eps15)).prod := by
      simp [List.prod_cons]
    rw [e3]
    have e4 : T * ((1 - a + eps15) * (rest.map (fun a => 1 - a + eps15)).prod)
        = T * (1 - a + eps15) * (rest.map (fun a => 1 - a + eps15)).prod := by ring
    linarith [hIH, e2, e1.ge, e4.ge]

theorem weightsAux_sum_zero_iff (l : List α) (T : α) (hT : 0 < T)
    (h : ∀ a ∈ l, 0 ≤ a ∧ a ≤ 1) :
    ((weightsAux T l).sum = 0 ↔ ∀ a ∈ l, a = 0) := by
  induction l generalizing T with
  | nil => simp [weightsAux]
  | cons a rest ih =>
    rw [weightsAux, List.sum_cons]
    have ha := h a (List.mem_cons_self _ _)
    have heps := eps15_pos (α := α)
    have hT2 : 0 < T * (1 - a + eps15) := by
      apply mul_pos hT
      linarith [ha.2]
    have hrest := fun x hx => h x (List.mem_cons_of_mem (a := x) a hx)
    have hS : 0 ≤ (weightsAux (T * (1 - a + eps15)) rest).sum :=
      weightsAux_sum_nonneg rest (T * (1 - a + eps15)) hT2.le hrest
    have haT : 0 ≤ a * T := mul_nonneg ha.1 hT.le
    rw [add_eq_zero_iff_of_nonneg haT hS, ih (T * (1 - a + eps15)) hT2 hrest,
      List.forall_mem_cons]
    constructor
    · rintro ⟨h1, h2⟩
      refine ⟨?_, h2⟩
      rcases mul_eq_zero.mp h1 with h1 | h1
      · exact h1
      · exact absurd h1 (ne_of_gt hT)
    · rintro ⟨h1, h2⟩
      exact ⟨by rw [h1, zero_mul], h2⟩

theorem prodShift_nonneg (l : List α) (h : ∀ a ∈ l, 0 ≤ a ∧ a ≤ 1) :
    0 ≤ (l.map (fun a => 1 - a + eps15)).prod := by
  apply le_of_lt
  apply List.prod_pos
  intro b hb
  rcases List.mem_map.mp hb with ⟨a, hamem, hab⟩
  have := (h a hamem).2
  have heps := eps15_pos (α := α)
  rw [← hab]
  linarith

end NeRF

theorem exp_alpha_bounds (scale : ℝ) (hscale : 0 < scale) :
    ∀ (ds ss : List ℝ), (∀ d ∈ ds, 0 < d) → (∀ s ∈ ss, 0 ≤ s) →
      ∀ a ∈ List.zipWith (fun dl s => 1 - Real.exp (-(dl * scale * s))) ds ss,
        0 ≤ a ∧ a ≤ 1 := by
  intro ds
  induction ds with
  | nil => intro ss _ _ a ha; simp at ha
  | cons d rest ih =>
    intro ss hd hs a ha
    cases ss with
    | nil => simp at ha
    | cons s ss2 =>
      rw [List.zipWith_cons_cons] at ha
      rcases List.mem_cons.mp ha with rfl | ha2
      · have hd0 := hd d (List.mem_cons_self _ _)
        have hs0 := hs s (List.mem_cons_self _ _)
        constructor
        · have hexp : Real.exp (-(d * scale * s)) ≤ 1 := by
            rw [Real.exp_le_one_iff]
            have : 0 ≤ d * scale * s := by positivity
            linarith
          linarith
        · have := Real.exp_pos (-(d * scale * s))
          linarith
      · exact ih ss2 (fun x hx => hd x (List.mem_cons_of_mem _ hx))
          (fun x hx => hs x (List.mem_cons_of_mem _ hx)) a ha2

theorem exp_alpha_zero_iff (scale : ℝ) (hscale : 0 < scale) :
    ∀ (ds ss : List ℝ), ds.length = ss.length → (∀ d ∈ ds, 0 < d) →
      ((∀ a ∈ List.zipWith (fun dl s => 1 - Real.exp (-(dl * scale * s))) ds ss, a = 0)
        ↔ ∀ s ∈ ss, s = 0) := by
  intro ds
  induction ds with
  | nil =>
    intro ss hlen _
    cases ss with
    | nil => simp
    | cons s ss2 => simp at hlen
  | cons d rest ih =>
    intro ss hlen hd
    cases ss with
    | nil => simp at hlen
    | cons s ss2 =>
      rw [List.zipWith_cons_cons, List.forall_mem_cons, List.forall_mem_cons]
      have hd0 := hd d (List.mem_cons_self _ _)
      have hhead : (1 - Real.exp (-(d * scale * s)) = 0 ↔ s = 0) := by
        constructor
        · intro h
          have hexp : Real.exp (-(d * scale * s)) = 1 := by linarith
          have := (Real.exp_eq_one_iff _).mp hexp
          have hds : d * scale ≠ 0 := by positivity
          have : d * scale * s = 0 := by linarith
          rcases mul_eq_zero.mp this with h2 | h2
          · exact absurd h2 hds
          · exact h2
        · intro h
          rw [h, mul_zero, neg_zero, Real.exp_zero]
          ring
      rw [hhead, ih ss2 (by simpa using hlen) (fun x hx => hd x (List.mem_cons_of_mem _ hx))]

/-- C2: for a ray with positive step sizes and finite non-negative per-sample
densities, the sum of the alpha-compositing weights
`weight_i = alpha_i * prod_of_j_lt_i (1 - alpha_j + 1e-15)` with
`alpha_i = 1 - exp(-delta_i * density_scale * sigma_i)` is at most
`(1 + 1e-15)^n` (the exact form of "1 within floating tolerance": the `1e-15`
shift can push the sum marginally above 1), and the sum is zero exactly when
every `sigma` is zero. -/
theorem weights_sum_bounded_and_zero_iff (scale : ℝ) (deltas sigmas : List ℝ)
    (hlen : deltas.length = sigmas.length)
    (hd : ∀ d ∈ deltas, 0 < d) (hs : ∀ s ∈ sigmas, 0 ≤ s) (hscale : 0 < scale) :
    (NeRF.compositeWeights (List.zipWith
        (fun dl s => 1 - Real.exp (-(dl * scale * s))) deltas sigmas)).sum
      ≤ (1 + NeRF.eps15) ^ (List.zipWith
          (fun dl s => 1 - Real.exp (-(dl * scale * s))) deltas sigmas).length
    ∧ ((NeRF.compositeWeights (List.zipWith
        (fun dl s => 1 - Real.exp (-(dl * scale * s))) deltas sigmas)).sum = 0
      ↔ ∀ s ∈ sigmas, s = 0) := by
  have halpha := exp_alpha_bounds scale hscale deltas sigmas hd hs
  rw [NeRF.compositeWeights_eq]
  constructor
  · have hle := NeRF.weightsAux_sum_le
      (List.zipWith (fun dl s => 1 - Real.exp (-(dl * scale * s))) deltas sigmas)
      1 (by norm_num) halpha
    have hP := NeRF.prodShift_nonneg
      (List.zipWith (fun dl s => 1 - Real.exp (-(dl * scale * s))) deltas sigmas) halpha
    linarith
  · rw [NeRF.weightsAux_sum_zero_iff
      (List.zipWith (fun dl s => 1 - Real.exp (-(dl * scale * s))) deltas sigmas)
      1 (by norm_num) halpha]
    exact exp_alpha_zero_iff scale hscale deltas sigmas hlen hd

theorem weights_sum_bounded_and_zero_iff_witness :
    ((NeRF.compositeWeights (List.zipWith
        (fun dl s => 1 - Real.exp (-(dl * 1 * s))) [(1 : ℝ)] [0])).sum
      ≤ (1 + NeRF.eps15) ^ (List.zipWith
          (fun dl s => 1 - Real.exp (-(dl * 1 * s))) [(1 : ℝ)] [0]).length
    ∧ ((NeRF.compositeWeights (List.zipWith
        (fun dl s => 1 - Real.exp (-(dl * 1 * s))) [(1 : ℝ)] [0])).sum = 0
      ↔ ∀ s ∈ [(0 : ℝ)], s = 0)) :=
  weights_sum_bounded_and_zero_iff 1 [(1 : ℝ)] [(0 : ℝ)] rfl
    (by intro d hd; simp at hd; simp [hd])
    (by intro s hs; simp at hs; simp [hs])
    one_pos

